import Mathlib

/-
Verification development for the rource repository (git-log → gource-log
converter).  The Rust source is shallowly embedded: Rust `String`s are
modelled as their UTF-8 byte sequences (`List Nat`, one element per byte;
Rust string comparison is bytewise lexicographic, so the order agrees),
`i64` as `Int` with explicit range hypotheses where the width matters,
fallible code as `Option`.
-/

namespace Rource

/-- `GourceActionType` from structs.rs: `enum GourceActionType { A, M, D }`.
The derived Rust `Ord` orders variants by declaration order. -/
inductive GourceActionType where
  | A
  | M
  | D
deriving DecidableEq

/-- Variant ordinal of the derived Rust `Ord`/`PartialOrd` on `GourceActionType`
(declaration order: A, M, D). -/
def actionIndex : GourceActionType → Nat
  | .A => 0
  | .M => 1
  | .D => 2

/-- `GourceLogFormat` from structs.rs (the record type shared by the spooling
and sorting subsystem).  `main.rs` declares an equivalent record whose
timestamp is a `DateTime<Utc>` built from the same epoch seconds; both are
modelled here with an `Int` timestamp.  Strings are UTF-8 byte lists. -/
structure GourceLogFormat where
  timestamp : Int
  username : List Nat
  type : GourceActionType
  file : List Nat
deriving DecidableEq

/-- Bytewise lexicographic comparison of byte lists: the semantics of Rust's
`Ord for String` (a strict prefix is less). -/
def listCmp : List Nat → List Nat → Ordering
  | [], [] => .eq
  | [], _ :: _ => .lt
  | _ :: _, [] => .gt
  | a :: as_, b :: bs => (compare a b).then (listCmp as_ bs)

/-- The derived `Ord` on `GourceActionType` (variant order). -/
def actionCmp (a b : GourceActionType) : Ordering :=
  compare (actionIndex a) (actionIndex b)

/-- `Ord for GourceLogFormat` from structs.rs:
timestamp, then file, then action, then username, chained with
`Ordering::then`. -/
def glfCmp (a b : GourceLogFormat) : Ordering :=
  (compare a.timestamp b.timestamp).then
    ((listCmp a.file b.file).then
      ((actionCmp a.type b.type).then (listCmp a.username b.username)))

/-- Non-strict order induced by the full comparison key of structs.rs. -/
def fullKeyLe (a b : GourceLogFormat) : Prop := glfCmp a b ≠ Ordering.gt

instance : DecidableRel fullKeyLe := fun a b => by
  unfold fullKeyLe; infer_instance

/-- Timestamp order: the sort key actually used by `write_gource_log` in
main.rs (`logs.sort_unstable_by_key(|log| log.timestamp)`). -/
def tsLe (a b : GourceLogFormat) : Prop := a.timestamp ≤ b.timestamp

instance : DecidableRel tsLe := fun a b => by
  unfold tsLe; infer_instance

/-- Boolean sortedness check under a given comparison. -/
def isSortedBy (le : GourceLogFormat → GourceLogFormat → Bool) :
    List GourceLogFormat → Bool
  | [] => true
  | [_] => true
  | a :: b :: t => le a b && isSortedBy le (b :: t)

/-- Boolean form of `fullKeyLe`. -/
def fullKeyLeB (a b : GourceLogFormat) : Bool :=
  match glfCmp a b with
  | .gt => false
  | _ => true

/-- One insertion step of an insertion sort keyed on the timestamp.
`write_gource_log` calls `sort_unstable_by_key(|log| log.timestamp)`;
Rust's unstable sort runs plain insertion sort on slices of at most 20
elements, which is what every concrete scenario below exercises, and the
general theorems proved about this model do not depend on how equal
timestamps are arranged. -/
def insertByTs (r : GourceLogFormat) : List GourceLogFormat → List GourceLogFormat
  | [] => [r]
  | x :: xs => if r.timestamp ≤ x.timestamp then r :: x :: xs else x :: insertByTs r xs

/-- Insertion sort by timestamp, the model of
`logs.sort_unstable_by_key(|log| log.timestamp)` in main.rs. -/
def sortByTs : List GourceLogFormat → List GourceLogFormat
  | [] => []
  | x :: xs => insertByTs x (sortByTs xs)

/-- Association-list model of the `HashMap<String, String>` of aliases. -/
def lookupAssoc : List (List Nat × List Nat) → List Nat → Option (List Nat)
  | [], _ => none
  | (k, v) :: t, u => if k = u then some v else lookupAssoc t u

/-- Alias substitution applied to one record, as in the
`if let Some(alias) = aliases.get(&log.username)` loop of
`write_gource_log`. -/
def applyAlias (aliases : List (List Nat × List Nat)) (r : GourceLogFormat) :
    GourceLogFormat :=
  match lookupAssoc aliases r.username with
  | some a => { r with username := a }
  | none => r

/-- `write_gource_log` from main.rs, up to but not including the delimited
text encoding (out of scope per the spec): sort by timestamp, then apply
aliases, and emit the records in that order. -/
def write_gource_log (logs : List GourceLogFormat)
    (aliases : List (List Nat × List Nat)) : List GourceLogFormat :=
  (sortByTs logs).map (applyAlias aliases)

/-- ASCII string literal helper for concrete test inputs (code points equal
UTF-8 bytes on the ASCII range used by every literal below). -/
def asciiBytes (s : String) : List Nat := s.toList.map Char.toNat

/-- Scenario A record (100, root/a.txt, Modify, alice). -/
def aliceRec : GourceLogFormat :=
  ⟨100, asciiBytes "alice", .M, asciiBytes "root/a.txt"⟩

/-- Scenario A record (50, root/b.txt, Add, bob). -/
def bobRec : GourceLogFormat :=
  ⟨50, asciiBytes "bob", .A, asciiBytes "root/b.txt"⟩

/-- Scenario A record (100, root/a.txt, Add, carol). -/
def carolRec : GourceLogFormat :=
  ⟨100, asciiBytes "carol", .A, asciiBytes "root/a.txt"⟩

/-- Scenario A input, in its stated order. -/
def scenarioA : List GourceLogFormat := [aliceRec, bobRec, carolRec]

/-- CBOR head (initial byte plus argument) with the minimal-width argument
encoding that serde_cbor's `write_u64` emits: the major type in the top
three bits, then the argument inline (< 24), or in 1, 2, 4 or 8 big-endian
following bytes. -/
def cborHead (major n : Nat) : List Nat :=
  if n < 24 then [32 * major + n]
  else if n < 256 then [32 * major + 24, n]
  else if n < 65536 then [32 * major + 25, n / 256, n % 256]
  else if n < 4294967296 then
    [32 * major + 26, n / 16777216, n / 65536 % 256, n / 256 % 256, n % 256]
  else
    [32 * major + 27, n / 72057594037927936, n / 281474976710656 % 256,
      n / 1099511627776 % 256, n / 4294967296 % 256, n / 16777216 % 256,
      n / 65536 % 256, n / 256 % 256, n % 256]

/-- serde_cbor's `serialize_i64`: major 0 with the value when non-negative,
major 1 with `-1 - v` when negative. -/
def cborInt (i : Int) : List Nat :=
  if 0 ≤ i then cborHead 0 i.toNat else cborHead 1 (-(i + 1)).toNat

/-- serde_cbor's `serialize_str`: text-string head (major 3) with the byte
length, then the UTF-8 bytes. -/
def cborText (b : List Nat) : List Nat := cborHead 3 b.length ++ b

/-- `serde_cbor::ser::to_vec_packed` applied to a `GourceLogFormat`: in the
packed format a struct is a CBOR map whose keys are the field indices
(declaration order: timestamp 0, username 1, type 2, file 3) and a unit
enum variant is its variant index. -/
def encodeLog (r : GourceLogFormat) : List Nat :=
  cborHead 5 4 ++
    cborHead 0 0 ++ cborInt r.timestamp ++
    cborHead 0 1 ++ cborText r.username ++
    cborHead 0 2 ++ cborHead 0 (actionIndex r.type) ++
    cborHead 0 3 ++ cborText r.file

/-- `log_to_bytes` from serde.rs: encode with serde_cbor, then form a
`DiskGourceLog { size: u16, data }`; `u16::try_from(data.len())` fails
(the error propagates with `?`) whenever the encoding exceeds 65535 bytes.
The result pair is (size, data). -/
def log_to_bytes (r : GourceLogFormat) : Option (Nat × List Nat) :=
  let data := encodeLog r
  if data.length ≤ 65535 then some (data.length, data) else none

/-- Decoder for a CBOR head: major type, argument value, remaining bytes. -/
def parseHead : List Nat → Option (Nat × Nat × List Nat)
  | [] => none
  | b :: rest =>
    let m := b / 32
    let ai := b % 32
    if ai < 24 then some (m, ai, rest)
    else if ai = 24 then
      match rest with
      | b0 :: r => some (m, b0, r)
      | [] => none
    else if ai = 25 then
      match rest with
      | b0 :: b1 :: r => some (m, 256 * b0 + b1, r)
      | _ => none
    else if ai = 26 then
      match rest with
      | b0 :: b1 :: b2 :: b3 :: r =>
        some (m, 16777216 * b0 + 65536 * b1 + 256 * b2 + b3, r)
      | _ => none
    else if ai = 27 then
      match rest with
      | b0 :: b1 :: b2 :: b3 :: b4 :: b5 :: b6 :: b7 :: r =>
        some (m, 72057594037927936 * b0 + 281474976710656 * b1 +
          1099511627776 * b2 + 4294967296 * b3 + 16777216 * b4 +
          65536 * b5 + 256 * b6 + b7, r)
      | _ => none
    else none

/-- Decode an unsigned integer item (major 0). -/
def parseUint (l : List Nat) : Option (Nat × List Nat) :=
  match parseHead l with
  | some (0, n, rest) => some (n, rest)
  | _ => none

/-- Decode an `i64` item the way serde_cbor's deserializer does: major 0 is
the value, major 1 is `-1 - n`; either direction fails above `i64::MAX`. -/
def parseInt (l : List Nat) : Option (Int × List Nat) :=
  match parseHead l with
  | some (0, n, rest) =>
    if n ≤ 9223372036854775807 then some ((n : Int), rest) else none
  | some (1, n, rest) =>
    if n ≤ 9223372036854775807 then some (-1 - (n : Int), rest) else none
  | _ => none

/-- Decode a text-string item (major 3): length, then that many bytes. -/
def parseText (l : List Nat) : Option (List Nat × List Nat) :=
  match parseHead l with
  | some (3, n, rest) =>
    if n ≤ rest.length then some (rest.take n, rest.drop n) else none
  | _ => none

/-- Decode a packed unit enum variant of `GourceActionType` by its index. -/
def parseAction (l : List Nat) : Option (GourceActionType × List Nat) :=
  match parseUint l with
  | some (0, r) => some (.A, r)
  | some (1, r) => some (.M, r)
  | some (2, r) => some (.D, r)
  | _ => none

/-- `serde_cbor::de::from_slice::<GourceLogFormat>` on a packed encoding:
a 4-entry map with integer keys 0..3 in field order, followed by nothing
(`from_slice` rejects trailing bytes). -/
def decodeLog (l : List Nat) : Option GourceLogFormat :=
  match parseHead l with
  | some (5, 4, r0) =>
    match parseUint r0 with
    | some (0, r1) =>
      match parseInt r1 with
      | some (ts, r2) =>
        match parseUint r2 with
        | some (1, r3) =>
          match parseText r3 with
          | some (u, r4) =>
            match parseUint r4 with
            | some (2, r5) =>
              match parseAction r5 with
              | some (a, r6) =>
                match parseUint r6 with
                | some (3, r7) =>
                  match parseText r7 with
                  | some (f, r8) =>
                    if r8 = [] then some ⟨ts, u, a, f⟩ else none
                  | none => none
                | _ => none
              | none => none
            | _ => none
          | none => none
        | _ => none
      | none => none
    | _ => none
  | _ => none

/-- The 2-byte little-endian length written by `log_write`
(`log.size.to_le_bytes()`). -/
def lenLE (n : Nat) : List Nat := [n % 256, n / 256]

/-- One spool frame as `log_write` emits it: length prefix, then payload. -/
def frameBytes (r : GourceLogFormat) : List Nat :=
  lenLE (encodeLog r).length ++ encodeLog r

/-- A spool stream of consecutive frames. -/
def framesBytes : List GourceLogFormat → List Nat
  | [] => []
  | r :: rs => frameBytes r ++ framesBytes rs

/-- `DiskLogReader::next` viewed on the reader's remaining bytes:
read a 2-byte little-endian length (else `None`), read that many payload
bytes (else `None`), decode (a failure also maps to `None` via `.ok()?`;
the iterator never yields an `Err` value).  Returns the record and the
bytes left after the frame. -/
def nextRecord : List Nat → Option (GourceLogFormat × List Nat)
  | b0 :: b1 :: rest =>
    let size := b0 + 256 * b1
    if size ≤ rest.length then
      match decodeLog (rest.take size) with
      | some r => some (r, rest.drop size)
      | none => none
    else none
  | _ => none

/-- Exhausting the `DiskLogReader` iterator: the finite sequence of records
`next` yields before first returning `None`. -/
def readAllL : List Nat → List GourceLogFormat
  | [] => []
  | [_] => []
  | b0 :: b1 :: rest =>
    let size := b0 + 256 * b1
    if size ≤ rest.length then
      match decodeLog (rest.take size) with
      | some r => r :: readAllL (rest.drop size)
      | none => []
    else []
termination_by l => l.length
decreasing_by
  simp only [List.length_drop, List.length_cons]
  omega

/-- The loop of `DiskLogReader::record_count` on the remaining bytes:
read a 2-byte length prefix (EOF ends the loop), `seek_relative` past the
payload (a seek beyond end-of-file is legal and makes the following read
fail), count one record per prefix read. -/
def record_countL : List Nat → Nat → Nat
  | [], acc => acc
  | [_], acc => acc
  | b0 :: b1 :: rest, acc => record_countL (rest.drop (b0 + 256 * b1)) (acc + 1)
termination_by l _ => l.length
decreasing_by
  simp only [List.length_drop, List.length_cons]
  omega

/-- `DiskLogReader::record_count` on a reader over `data` positioned at
`pos`: counts length prefixes from the current position, then executes
`self.reader.seek(io::SeekFrom::Start(0))` — the reader is left at the
start of the file.  Result: (count, final position). -/
def record_count (data : List Nat) (pos : Nat) : Nat × Nat :=
  (record_countL (data.drop pos) 0, 0)

/-- A record the spool can carry: an `i64` timestamp and an encoding that
fits the 16-bit frame length. -/
def Fits (r : GourceLogFormat) : Prop :=
  -9223372036854775808 ≤ r.timestamp ∧ r.timestamp < 9223372036854775808 ∧
    (encodeLog r).length ≤ 65535

instance : DecidablePred Fits := fun r => by
  unfold Fits; infer_instance

/-- `MergeSortConfig::new` from structs.rs with the filesystem abstracted
to whether the (expanded) temporary location's parent exists: first the
parent check bails, then `chunk_size.unwrap_or(4096)` is rejected below 50
(the error text claims a 64 MB minimum); on success the configuration
holds the chunk size. -/
def mergeSortConfigNew (chunk_size : Option Nat) (parentExists : Bool) :
    Option Nat :=
  if parentExists then
    let cs := chunk_size.getD 4096
    if cs < 50 then none else some cs
  else none

/-- `git2::Delta`: the status variants matched by `try_from_delta`. -/
inductive DeltaStatus where
  | Added
  | Deleted
  | Modified
  | Renamed
  | Copied
  | Typechange
  | Untracked
  | Unmodified
  | Unreadable
  | Conflicted
  | Ignored
deriving DecidableEq

/-- The status match of `try_from_delta` (structs.rs): Added → A,
Deleted → D, Modified/Renamed/Copied/Typechange → M, and the five
tree-preserving statuses produce no record. -/
def deltaAction : DeltaStatus → Option GourceActionType
  | .Added => some .A
  | .Deleted => some .D
  | .Modified | .Renamed | .Copied | .Typechange => some .M
  | .Untracked | .Unmodified | .Unreadable | .Conflicted | .Ignored => none

/-- The `.replace('|', "#")` applied to the commit author name (byte 124 is
the only byte of the pipe character in UTF-8; 35 is the hash sign). -/
def sanitizeUsername (u : List Nat) : List Nat :=
  u.map fun b => if b = 124 then 35 else b

/-- `GourceLogFormat::try_from_delta` from structs.rs with the git2 calls
abstracted to their results: `relative` is the outcome of
`repo.path().strip_prefix(root).parent()`, `authorName` of
`commit.author().name()`, `newFilePath` of `delta.new_file().path()` as
UTF-8 bytes (byte paths that are not valid UTF-8 are outside this model).
Outer `none` is an `Err`; `some none` is `Ok(None)`.  Control flow follows
the source: relative path first, then the author name (sanitized), then
the status match (which may return `Ok(None)` before the path is touched),
then the path and the `relative/path` join (byte 47 is the slash). -/
def try_from_delta (relative : Option (List Nat)) (authorName : Option (List Nat))
    (timestamp : Int) (status : DeltaStatus) (newFilePath : Option (List Nat)) :
    Option (Option GourceLogFormat) :=
  match relative with
  | none => none
  | some rel =>
    match authorName with
    | none => none
    | some an =>
      let username := sanitizeUsername an
      match deltaAction status with
      | none => some none
      | some a =>
        match newFilePath with
        | none => none
        | some p =>
          let file := if rel = [] then p else rel ++ 47 :: p
          some (some ⟨timestamp, username, a, file⟩)

/-- The changeset of one commit before the size limit is applied: the
deltas mapped through `try_from_delta`, errors logged and dropped
(`unwrap_or_else(|e| { error!(..); None })` inside `filter_map`). -/
def diffChanges (relative authorName : Option (List Nat)) (timestamp : Int)
    (deltas : List (DeltaStatus × Option (List Nat))) : List GourceLogFormat :=
  deltas.filterMap fun d =>
    (try_from_delta relative authorName timestamp d.1 d.2).getD none

/-- `compute_diff` from git_stuff.rs with the two trees abstracted to their
delta list: with a limit it takes `limit + 1` changes and returns the
empty vector when more than `limit` arrived, otherwise what was taken;
without a limit it returns everything. -/
def compute_diff (relative authorName : Option (List Nat)) (timestamp : Int)
    (deltas : List (DeltaStatus × Option (List Nat))) (limit : Option Nat) :
    List GourceLogFormat :=
  let changes := diffChanges relative authorName timestamp deltas
  match limit with
  | some l =>
    let c := changes.take (l + 1)
    if l < c.length then [] else c
  | none => changes

/-- A record whose packed encoding is exactly 65535 bytes: 8 single-byte
items (map head, three key/value single-byte pairs and the key 3) plus a
3-byte text head and 65524 payload bytes. -/
def rec65535 : GourceLogFormat := ⟨0, [], .A, List.replicate 65524 97⟩

/-- A record whose packed encoding is exactly 65536 bytes. -/
def rec65536 : GourceLogFormat := ⟨0, [], .A, List.replicate 65525 97⟩

/-- A small record used as a concrete witness input. -/
def tinyRec : GourceLogFormat := ⟨0, [97], .A, [98]⟩

theorem mem_insertByTs (r : GourceLogFormat) (l : List GourceLogFormat) :
    ∀ y, y ∈ insertByTs r l → y = r ∨ y ∈ l := by
  induction l with
  | nil =>
    intro y hy
    rw [insertByTs] at hy
    exact Or.inl (List.mem_singleton.mp hy)
  | cons x xs ih =>
    intro y hy
    rw [insertByTs] at hy
    by_cases hc : r.timestamp ≤ x.timestamp
    · rw [if_pos hc] at hy
      rcases List.mem_cons.mp hy with h1 | h1
      · exact Or.inl h1
      · exact Or.inr h1
    · rw [if_neg hc] at hy
      rcases List.mem_cons.mp hy with h1 | h1
      · exact Or.inr (List.mem_cons.mpr (Or.inl h1))
      · rcases ih y h1 with h2 | h2
        · exact Or.inl h2
        · exact Or.inr (List.mem_cons.mpr (Or.inr h2))

theorem pairwise_insertByTs (r : GourceLogFormat) (l : List GourceLogFormat)
    (h : l.Pairwise tsLe) : (insertByTs r l).Pairwise tsLe := by
  induction l with
  | nil => simp [insertByTs]
  | cons x xs ih =>
    rcases List.pairwise_cons.mp h with ⟨hx, hxs⟩
    rw [insertByTs]
    by_cases hc : r.timestamp ≤ x.timestamp
    · rw [if_pos hc]
      refine List.pairwise_cons.mpr ⟨?_, h⟩
      intro b hb
      rcases List.mem_cons.mp hb with hb | hb
      · rw [hb]; exact hc
      · exact le_trans hc (hx b hb)
    · rw [if_neg hc]
      refine List.pairwise_cons.mpr ⟨?_, ih hxs⟩
      intro b hb
      rcases mem_insertByTs r xs b hb with hb1 | hb1
      · rw [hb1]; exact le_of_not_le hc
      · exact hx b hb1

theorem length_insertByTs (r : GourceLogFormat) (l : List GourceLogFormat) :
    (insertByTs r l).length = l.length + 1 := by
  induction l with
  | nil => rfl
  | cons x xs ih =>
    unfold insertByTs
    by_cases hc : r.timestamp ≤ x.timestamp <;> simp [hc, ih]

theorem length_sortByTs (l : List GourceLogFormat) :
    (sortByTs l).length = l.length := by
  induction l with
  | nil => rfl
  | cons x xs ih => simp [sortByTs, length_insertByTs, ih]

theorem pairwise_sortByTs (l : List GourceLogFormat) :
    (sortByTs l).Pairwise tsLe := by
  induction l with
  | nil => simp [sortByTs]
  | cons x xs ih => exact pairwise_insertByTs x (sortByTs xs) ih

theorem timestamp_applyAlias (aliases : List (List Nat × List Nat))
    (r : GourceLogFormat) : (applyAlias aliases r).timestamp = r.timestamp := by
  unfold applyAlias
  cases lookupAssoc aliases r.username <;> rfl

/-- C1 counterexample: on the Scenario A input, `write_gource_log` does not
produce the output the claim states (the two timestamp-100 records stay in
input order, Modify/alice before Add/carol), and its output is not
non-decreasing under the full (timestamp, file, action, username) key —
the code sorts by timestamp alone. -/
theorem write_gource_log_scenarioA_counterexample :
    write_gource_log scenarioA [] ≠ [bobRec, carolRec, aliceRec] ∧
      isSortedBy fullKeyLeB (write_gource_log scenarioA []) = false := by
  decide

/-- C1 amended: `write_gource_log` preserves the number of records and its
output is non-decreasing by timestamp — the only sort key the code uses
(`sort_unstable_by_key(|log| log.timestamp)`); equal timestamps are not
further ordered, and on the Scenario A input the output keeps the two
timestamp-100 records in input order:
[(50,root/b.txt,Add,bob), (100,root/a.txt,Modify,alice),
 (100,root/a.txt,Add,carol)]. -/
theorem write_gource_log_sorted_by_timestamp :
    (∀ logs aliases, (write_gource_log logs aliases).length = logs.length ∧
      (write_gource_log logs aliases).Pairwise tsLe) ∧
      write_gource_log scenarioA [] = [bobRec, aliceRec, carolRec] := by
  refine ⟨fun logs aliases => ⟨?_, ?_⟩, by decide⟩
  · simp [write_gource_log, length_sortByTs]
  · exact List.Pairwise.map (applyAlias aliases)
      (fun a b hab => by
        simpa [tsLe, timestamp_applyAlias] using hab)
      (pairwise_sortByTs logs)

/-- C4: the chunk-size floor actually enforced by `MergeSortConfig::new` is
50, not the 64 MB documented in the CLI help and in the function's own
error message: 49 is rejected, but 50 and 63 (both below 64) are accepted,
as is 64; an omitted chunk size defaults to 4096. -/
theorem mergeSortConfigNew_floor_is_50 :
    mergeSortConfigNew (some 63) true = some 63 ∧
      mergeSortConfigNew (some 50) true = some 50 ∧
      mergeSortConfigNew (some 49) true = none ∧
      mergeSortConfigNew (some 64) true = some 64 ∧
      mergeSortConfigNew none true = some 4096 ∧
      mergeSortConfigNew (some 64) false = none := by
  decide

/-- C5 counterexample: `record_count` does not restore the reader's
position: started at position 2 of a stream it leaves the reader at
position 0 (the code runs `seek(SeekFrom::Start(0))`). -/
theorem record_count_position_counterexample :
    (record_count [1, 0, 7] 2).2 ≠ 2 := by decide

/-- C5 amended: `record_count` counts records from the current position by
reading only the 2-byte length prefixes and seeking past each payload, and
afterwards it rewinds the reader to the start of the file (position 0) —
which equals the original position exactly when the reader was at the
start, the state in which the code invokes it, so a subsequent iteration
from the start is unaffected. -/
theorem record_count_resets_to_start :
    ∀ data pos, (record_count data pos).2 = 0 ∧
      (pos = 0 → (record_count data pos).2 = pos) := by
  intro data pos
  exact ⟨rfl, fun h => by simp [record_count, h]⟩

/-- C5 witness: at the start of a concrete one-frame stream, the position
after `record_count` equals the starting position 0. -/
theorem record_count_resets_to_start_witness :
    (record_count [1, 0, 7] 0).2 = 0 :=
  (record_count_resets_to_start [1, 0, 7] 0).2 rfl

/-- C7: `try_from_delta` maps Added to A, Deleted to D, each of Modified,
Renamed, Copied and Typechange to M, and returns Ok(None) for Untracked,
Unmodified, Unreadable, Conflicted and Ignored (given that the relative
path and author name resolve): whenever a record is produced its action is
`deltaAction` of the status, and a status with no action yields Ok(None)
before any record is formed. -/
theorem try_from_delta_status_mapping :
    ∀ rel an ts p st,
      (deltaAction st = none →
        try_from_delta (some rel) (some an) ts st (some p) = some none) ∧
      (∀ r, try_from_delta (some rel) (some an) ts st (some p) = some (some r) →
        deltaAction st = some r.type) := by
  intro rel an ts p st
  constructor
  · intro h
    simp [try_from_delta, h]
  · intro r h
    unfold try_from_delta at h
    cases hd : deltaAction st with
    | none => simp [hd] at h
    | some a =>
      simp only [hd] at h
      by_cases hrel : rel = [] <;>
        simp only [hrel, if_pos, if_neg, not_false_iff, Option.some.injEq] at h <;>
        simp [← h, hd]

/-- C7 witness: a concrete ignored status yields Ok(None), and a concrete
Added delta carries action A. -/
theorem try_from_delta_status_mapping_witness :
    try_from_delta (some []) (some []) 0 DeltaStatus.Untracked (some []) =
        some none ∧
      deltaAction DeltaStatus.Added = some GourceActionType.A := by
  refine ⟨(try_from_delta_status_mapping [] [] 0 [] DeltaStatus.Untracked).1 rfl, ?_⟩
  exact (try_from_delta_status_mapping [] [] 0 [] DeltaStatus.Added).2
    ⟨0, [], .A, []⟩ (by decide)

/-- C8: every record produced by `try_from_delta` has a username free of
the pipe byte: the author name passes through `.replace('|', "#")` before
the record is built. -/
theorem try_from_delta_username_no_pipe :
    ∀ rel an ts st p r,
      try_from_delta (some rel) (some an) ts st (some p) = some (some r) →
      124 ∉ r.username := by
  intro rel an ts st p r h
  unfold try_from_delta at h
  cases hd : deltaAction st with
  | none => simp [hd] at h
  | some a =>
    simp only [hd] at h
    have husr : r.username = sanitizeUsername an := by
      by_cases hrel : rel = [] <;>
        simp only [hrel, if_pos, if_neg, not_false_iff, Option.some.injEq] at h <;>
        simp [← h]
    rw [husr]
    intro hmem
    rcases List.mem_map.mp hmem with ⟨b, _, hb⟩
    by_cases hb124 : b = 124 <;> simp [hb124] at hb

/-- C8 witness: an author name consisting of a single pipe byte yields a
record whose username (the hash byte) does not contain the pipe byte. -/
theorem try_from_delta_username_no_pipe_witness :
    124 ∉ (GourceLogFormat.mk 0 [35] .A [] : GourceLogFormat).username :=
  try_from_delta_username_no_pipe [] [124] 0 .Added [] ⟨0, [35], .A, []⟩
    (by decide)

theorem parseHead_cborHead (m n : Nat) (rest : List Nat)
    (hn : n < 18446744073709551616) :
    parseHead (cborHead m n ++ rest) = some (m, n, rest) := by
  unfold cborHead
  by_cases h1 : n < 24
  · rw [if_pos h1]
    show parseHead ((32 * m + n) :: rest) = some (m, n, rest)
    have hd : (32 * m + n) / 32 = m := by omega
    have hr : (32 * m + n) % 32 = n := by omega
    simp [parseHead, hd, hr, h1]
  · rw [if_neg h1]
    by_cases h2 : n < 256
    · rw [if_pos h2]
      show parseHead ((32 * m + 24) :: n :: rest) = some (m, n, rest)
      have hd : (32 * m + 24) / 32 = m := by omega
      have hr : (32 * m + 24) % 32 = 24 := by omega
      simp [parseHead, hd, hr]
    · rw [if_neg h2]
      by_cases h3 : n < 65536
      · rw [if_pos h3]
        show parseHead ((32 * m + 25) :: n / 256 :: n % 256 :: rest) =
          some (m, n, rest)
        have hd : (32 * m + 25) / 32 = m := by omega
        have hr : (32 * m + 25) % 32 = 25 := by omega
        have hv : 256 * (n / 256) + n % 256 = n := by omega
        simp [parseHead, hd, hr, hv]
      · rw [if_neg h3]
        by_cases h4 : n < 4294967296
        · rw [if_pos h4]
          show parseHead ((32 * m + 26) :: n / 16777216 :: n / 65536 % 256 ::
            n / 256 % 256 :: n % 256 :: rest) = some (m, n, rest)
          have hd : (32 * m + 26) / 32 = m := by omega
          have hr : (32 * m + 26) % 32 = 26 := by omega
          have hv : 16777216 * (n / 16777216) + 65536 * (n / 65536 % 256) +
              256 * (n / 256 % 256) + n % 256 = n := by omega
          simp [parseHead, hd, hr, hv]
        · rw [if_neg h4]
          show parseHead ((32 * m + 27) :: n / 72057594037927936 ::
            n / 281474976710656 % 256 :: n / 1099511627776 % 256 ::
            n / 4294967296 % 256 :: n / 16777216 % 256 :: n / 65536 % 256 ::
            n / 256 % 256 :: n % 256 :: rest) = some (m, n, rest)
          have hd : (32 * m + 27) / 32 = m := by omega
          have hr : (32 * m + 27) % 32 = 27 := by omega
          have hv : 72057594037927936 * (n / 72057594037927936) +
              281474976710656 * (n / 281474976710656 % 256) +
              1099511627776 * (n / 1099511627776 % 256) +
              4294967296 * (n / 4294967296 % 256) +
              16777216 * (n / 16777216 % 256) + 65536 * (n / 65536 % 256) +
              256 * (n / 256 % 256) + n % 256 = n := by omega
          simp [parseHead, hd, hr, hv]

theorem parseUint_cbor (k : Nat) (rest : List Nat)
    (hk : k < 18446744073709551616) :
    parseUint (cborHead 0 k ++ rest) = some (k, rest) := by
  unfold parseUint
  rw [parseHead_cborHead 0 k rest hk]

theorem parseInt_cbor (i : Int) (rest : List Nat)
    (h1 : -9223372036854775808 ≤ i) (h2 : i < 9223372036854775808) :
    parseInt (cborInt i ++ rest) = some (i, rest) := by
  unfold parseInt cborInt
  by_cases h : 0 ≤ i
  · rw [if_pos h, parseHead_cborHead 0 i.toNat rest (by omega)]
    have hle : i.toNat ≤ 9223372036854775807 := by omega
    have hcast : (i.toNat : Int) = i := Int.toNat_of_nonneg h
    simp [hle, hcast]
  · rw [if_neg h, parseHead_cborHead 1 (-(i + 1)).toNat rest (by omega)]
    have hle : (-(i + 1)).toNat ≤ 9223372036854775807 := by omega
    simp [hle]
    omega

theorem parseText_cbor (b rest : List Nat)
    (hb : b.length < 18446744073709551616) :
    parseText (cborText b ++ rest) = some (b, rest) := by
  unfold parseText cborText
  rw [List.append_assoc, parseHead_cborHead 3 b.length (b ++ rest) hb]
  simp [List.take_left, List.drop_left]

theorem parseAction_cbor (a : GourceActionType) (rest : List Nat) :
    parseAction (cborHead 0 (actionIndex a) ++ rest) = some (a, rest) := by
  cases a <;>
    · unfold parseAction actionIndex
      rw [parseUint_cbor _ rest (by norm_num)]

theorem decodeLog_encodeLog (r : GourceLogFormat)
    (h1 : -9223372036854775808 ≤ r.timestamp)
    (h2 : r.timestamp < 9223372036854775808)
    (hu : r.username.length < 18446744073709551616)
    (hf : r.file.length < 18446744073709551616) :
    decodeLog (encodeLog r) = some r := by
  have htext : parseText (cborText r.file) = some (r.file, []) := by
    have h := parseText_cbor r.file [] hf
    rwa [List.append_nil] at h
  unfold decodeLog encodeLog
  simp only [List.append_assoc]
  rw [parseHead_cborHead 5 4 _ (by norm_num)]
  simp only []
  rw [parseUint_cbor 0 _ (by norm_num)]
  simp only []
  rw [parseInt_cbor r.timestamp _ h1 h2]
  simp only []
  rw [parseUint_cbor 1 _ (by norm_num)]
  simp only []
  rw [parseText_cbor r.username _ hu]
  simp only []
  rw [parseUint_cbor 2 _ (by norm_num)]
  simp only []
  rw [parseAction_cbor r.type _]
  simp only []
  rw [parseUint_cbor 3 _ (by norm_num)]
  simp only []
  rw [htext]
  simp only []
  rfl

theorem strings_le_encodeLog (r : GourceLogFormat) :
    r.username.length ≤ (encodeLog r).length ∧
      r.file.length ≤ (encodeLog r).length := by
  refine ⟨?_, ?_⟩ <;>
    · simp only [encodeLog, cborText, List.length_append]
      omega

theorem readAllL_frame (r : GourceLogFormat) (tail : List Nat)
    (h1 : -9223372036854775808 ≤ r.timestamp)
    (h2 : r.timestamp < 9223372036854775808)
    (h3 : (encodeLog r).length ≤ 65535) :
    readAllL (frameBytes r ++ tail) = r :: readAllL tail := by
  have hb := strings_le_encodeLog r
  have hdec : decodeLog (encodeLog r) = some r :=
    decodeLog_encodeLog r h1 h2 (by omega) (by omega)
  have hsz : (encodeLog r).length % 256 +
      256 * ((encodeLog r).length / 256) = (encodeLog r).length := by omega
  show readAllL ((encodeLog r).length % 256 :: (encodeLog r).length / 256 ::
    (encodeLog r ++ tail)) = r :: readAllL tail
  rw [readAllL.eq_def]
  simp only []
  rw [hsz, if_pos (by simp), List.take_left, List.drop_left, hdec]

theorem readAllL_framesBytes (rs : List GourceLogFormat) (tail : List Nat)
    (h : ∀ r ∈ rs, Fits r) :
    readAllL (framesBytes rs ++ tail) = rs ++ readAllL tail := by
  induction rs with
  | nil => simp [framesBytes]
  | cons r rs ih =>
    have hr : Fits r := h r (List.mem_cons_self r rs)
    rw [framesBytes, List.append_assoc,
      readAllL_frame r _ hr.1 hr.2.1 hr.2.2,
      ih fun x hx => h x (List.mem_cons_of_mem r hx)]
    rfl

theorem record_countL_frame (r : GourceLogFormat) (tail : List Nat) (acc : Nat) :
    record_countL (frameBytes r ++ tail) acc = record_countL tail (acc + 1) := by
  have hsz : (encodeLog r).length % 256 +
      256 * ((encodeLog r).length / 256) = (encodeLog r).length := by omega
  show record_countL ((encodeLog r).length % 256 :: (encodeLog r).length / 256 ::
    (encodeLog r ++ tail)) acc = record_countL tail (acc + 1)
  rw [record_countL.eq_def]
  simp only []
  rw [hsz, List.drop_left]

theorem record_countL_framesBytes (rs : List GourceLogFormat) (tail : List Nat)
    (acc : Nat) :
    record_countL (framesBytes rs ++ tail) acc =
      record_countL tail (acc + rs.length) := by
  induction rs generalizing acc with
  | nil => simp [framesBytes]
  | cons r rs ih =>
    rw [framesBytes, List.append_assoc, record_countL_frame, ih,
      List.length_cons]
    congr 1
    omega

theorem record_countL_truncated (c0 c1 : Nat) (short : List Nat) (acc : Nat)
    (h : short.length < c0 + 256 * c1) :
    record_countL (c0 :: c1 :: short) acc = acc + 1 := by
  rw [record_countL.eq_def]
  simp only []
  rw [List.drop_eq_nil_of_le (by omega), record_countL.eq_def]

theorem readAllL_truncated (c0 c1 : Nat) (short : List Nat)
    (h : short.length < c0 + 256 * c1) :
    readAllL (c0 :: c1 :: short) = [] := by
  rw [readAllL.eq_def]
  simp only []
  rw [if_neg (by omega)]

theorem nextRecord_truncated (c0 c1 : Nat) (short : List Nat)
    (h : short.length < c0 + 256 * c1) :
    nextRecord (c0 :: c1 :: short) = none := by
  unfold nextRecord
  simp only []
  rw [if_neg (by omega)]

theorem record_countL_nil (acc : Nat) : record_countL [] acc = acc := by
  rw [record_countL.eq_def]

theorem readAllL_nil : readAllL [] = [] := by
  rw [readAllL.eq_def]

/-- C2: for every record with an `i64` timestamp whose encoded form is at
most 65535 bytes, `log_to_bytes` succeeds with the full encoding and its
true length, and reading the resulting frame back the way
`DiskLogReader::next` does yields exactly the original record. -/
theorem log_roundtrip (r : GourceLogFormat)
    (h1 : -9223372036854775808 ≤ r.timestamp)
    (h2 : r.timestamp < 9223372036854775808)
    (h3 : (encodeLog r).length ≤ 65535) :
    log_to_bytes r = some ((encodeLog r).length, encodeLog r) ∧
      readAllL (frameBytes r) = [r] := by
  refine ⟨by simp [log_to_bytes, h3], ?_⟩
  have h := readAllL_frame r [] h1 h2 h3
  rw [List.append_nil] at h
  rw [h, readAllL_nil]

/-- C2 witness: the round trip at a concrete small record. -/
theorem log_roundtrip_witness :
    log_to_bytes tinyRec = some ((encodeLog tinyRec).length, encodeLog tinyRec) ∧
      readAllL (frameBytes tinyRec) = [tinyRec] :=
  log_roundtrip tinyRec (by decide) (by decide) (by decide)

theorem encodeLog_rec65535_length : (encodeLog rec65535).length = 65535 := by
  have h1 : rec65535.username = [] := rfl
  have h2 : rec65535.file = List.replicate 65524 97 := rfl
  have h3 : rec65535.timestamp = 0 := rfl
  have h4 : rec65535.type = GourceActionType.A := rfl
  simp only [encodeLog, h1, h2, h3, h4, cborText, List.length_append,
    List.length_replicate]
  norm_num [cborInt, cborHead, actionIndex]

theorem encodeLog_rec65536_length : (encodeLog rec65536).length = 65536 := by
  have h1 : rec65536.username = [] := rfl
  have h2 : rec65536.file = List.replicate 65525 97 := rfl
  have h3 : rec65536.timestamp = 0 := rfl
  have h4 : rec65536.type = GourceActionType.A := rfl
  simp only [encodeLog, h1, h2, h3, h4, cborText, List.length_append,
    List.length_replicate]
  norm_num [cborInt, cborHead, actionIndex]

/-- C3: `log_to_bytes` stores the whole encoding, never a truncation: any
successful result carries exactly the encoded bytes with their true
length, which is at most 65535; an encoding of exactly 65535 bytes
succeeds, and one of 65536 bytes or more fails with an error
(`u16::try_from` refuses the length).  The records `rec65535` and
`rec65536` below realize the two boundary cases. -/
theorem log_to_bytes_never_truncates :
    ∀ r : GourceLogFormat,
      (∀ n d, log_to_bytes r = some (n, d) →
        d = encodeLog r ∧ n = d.length ∧ n ≤ 65535) ∧
      ((encodeLog r).length = 65535 →
        log_to_bytes r = some (65535, encodeLog r)) ∧
      (65536 ≤ (encodeLog r).length → log_to_bytes r = none) := by
  intro r
  refine ⟨?_, ?_, ?_⟩
  · intro n d h
    unfold log_to_bytes at h
    by_cases hle : (encodeLog r).length ≤ 65535
    · rw [if_pos hle] at h
      have hnd : (encodeLog r).length = n ∧ encodeLog r = d := by
        simpa using h
      refine ⟨hnd.2.symm, ?_, ?_⟩
      · rw [← hnd.1, ← hnd.2]
      · omega
    · rw [if_neg hle] at h
      exact absurd h (by simp)
  · intro h65
    unfold log_to_bytes
    rw [if_pos (by omega), h65]
  · intro hge
    unfold log_to_bytes
    rw [if_neg (by omega)]

/-- C3 witness: the exactly-65535-byte record is accepted, the
65536-byte record is rejected, and a small record is within bounds. -/
theorem log_to_bytes_never_truncates_witness :
    log_to_bytes rec65535 = some (65535, encodeLog rec65535) ∧
      log_to_bytes rec65536 = none ∧
      (encodeLog tinyRec).length ≤ 65535 := by
  refine ⟨(log_to_bytes_never_truncates rec65535).2.1 encodeLog_rec65535_length,
    (log_to_bytes_never_truncates rec65536).2.2
      (by rw [encodeLog_rec65536_length]),
    ((log_to_bytes_never_truncates tinyRec).1 (encodeLog tinyRec).length
      (encodeLog tinyRec) (by decide)).2.2⟩

/-- C6: on a stream of complete frames followed by a final frame whose
length prefix declares more payload bytes than remain, the iterator
yields exactly the complete records and then ends: `next` returns `None`
at the truncated frame (the iterator never produces an error value). -/
theorem truncated_final_frame_ends_iteration :
    ∀ (rs : List GourceLogFormat) (c0 c1 : Nat) (short : List Nat),
      (∀ r ∈ rs, Fits r) → short.length < c0 + 256 * c1 →
      readAllL (framesBytes rs ++ c0 :: c1 :: short) = rs ∧
        nextRecord (c0 :: c1 :: short) = none := by
  intro rs c0 c1 short hf ht
  refine ⟨?_, nextRecord_truncated c0 c1 short ht⟩
  rw [readAllL_framesBytes rs _ hf, readAllL_truncated c0 c1 short ht,
    List.append_nil]

/-- C6 witness: one complete frame followed by a truncated frame whose
prefix declares 5 bytes with none available. -/
theorem truncated_final_frame_ends_iteration_witness :
    readAllL (framesBytes [tinyRec] ++ 5 :: 0 :: []) = [tinyRec] ∧
      nextRecord (5 :: 0 :: []) = none :=
  truncated_final_frame_ends_iteration [tinyRec] 5 0 [] (by decide) (by decide)

/-- C9: on a well-formed stream `record_count` and the iterator agree
(count = number of records = number yielded), while on a stream whose
final frame is truncated `record_count` still counts the truncated frame
(it only reads prefixes), returning one more than the iterator yields. -/
theorem record_count_vs_iteration :
    ∀ (rs : List GourceLogFormat) (c0 c1 : Nat) (short : List Nat),
      (∀ r ∈ rs, Fits r) → short.length < c0 + 256 * c1 →
      ((record_count (framesBytes rs) 0).1 = rs.length ∧
        readAllL (framesBytes rs) = rs) ∧
      ((record_count (framesBytes rs ++ c0 :: c1 :: short) 0).1 =
          rs.length + 1 ∧
        readAllL (framesBytes rs ++ c0 :: c1 :: short) = rs) := by
  intro rs c0 c1 short hf ht
  refine ⟨⟨?_, ?_⟩, ?_, ?_⟩
  · show record_countL (framesBytes rs) 0 = rs.length
    have h := record_countL_framesBytes rs [] 0
    rw [List.append_nil] at h
    rw [h, record_countL_nil]
    omega
  · have h := readAllL_framesBytes rs [] hf
    rw [List.append_nil, readAllL_nil, List.append_nil] at h
    exact h
  · show record_countL (framesBytes rs ++ c0 :: c1 :: short) 0 = rs.length + 1
    rw [record_countL_framesBytes, record_countL_truncated c0 c1 short _ ht]
    omega
  · rw [readAllL_framesBytes rs _ hf, readAllL_truncated c0 c1 short ht,
      List.append_nil]

/-- C9 witness: a one-frame stream counts 1 and yields the record; with a
truncated second frame appended it counts 2 but still yields one record. -/
theorem record_count_vs_iteration_witness :
    ((record_count (framesBytes [tinyRec]) 0).1 = 1 ∧
      readAllL (framesBytes [tinyRec]) = [tinyRec]) ∧
    ((record_count (framesBytes [tinyRec] ++ 5 :: 0 :: []) 0).1 = 2 ∧
      readAllL (framesBytes [tinyRec] ++ 5 :: 0 :: []) = [tinyRec]) :=
  record_count_vs_iteration [tinyRec] 5 0 [] (by decide) (by decide)

/-- C10: with a limit, `compute_diff` returns the complete changeset when
its size is at most the limit and the empty list when it exceeds it —
never a proper non-empty prefix; without a limit it returns everything. -/
theorem compute_diff_all_or_nothing :
    ∀ rel an ts deltas l,
      (compute_diff rel an ts deltas (some l) =
        if (diffChanges rel an ts deltas).length ≤ l then
          diffChanges rel an ts deltas
        else []) ∧
      compute_diff rel an ts deltas none = diffChanges rel an ts deltas := by
  intro rel an ts deltas l
  refine ⟨?_, rfl⟩
  by_cases h : (diffChanges rel an ts deltas).length ≤ l
  · have htake : (diffChanges rel an ts deltas).take (l + 1) =
        diffChanges rel an ts deltas :=
      List.take_of_length_le (by omega)
    simp [compute_diff, htake, h, Nat.not_lt.mpr h]
  · have hlt : l < ((diffChanges rel an ts deltas).take (l + 1)).length := by
      rw [List.length_take]; omega
    simp [compute_diff, h, hlt]

end Rource
